import Mathlib

/-!
Verification of the line-oriented diff/patch engine of the repository
(`src/wasm-tools/src/diff/main.c` and `src/wasm-tools/src/patch/main.c`).

The C sources are shallowly embedded below: `parse_lines`, the LCS table,
the backtracking loop of `print_diff`, its hunk-emission loop, and the
patch tool's `parse_hunk_header` / `apply_patch` become executable Lean
functions over `String` / `List String`, keeping the source's names and
control structure.
-/

namespace DiffPatch

/-- `MAX_LINES` from both `diff/main.c` and `patch/main.c`. -/
def MAX_LINES : Nat := 10000

/-- The token loop of `parse_lines` (diff/main.c:26-37, patch/main.c:18-29):
`strtok(text, "\n")` returns the maximal nonempty runs of non-newline
characters, skipping over any run of `'\n'` delimiters.  `acc` is the
current token accumulated in reverse. -/
def splitTokens : List Char → List Char → List (List Char)
  | [], acc => if acc.isEmpty then [] else [acc.reverse]
  | c :: rest, acc =>
    if c = '\n' then
      if acc.isEmpty then splitTokens rest [] else acc.reverse :: splitTokens rest []
    else
      splitTokens rest (c :: acc)

/-- `parse_lines` (diff/main.c:26-37 and identically patch/main.c:18-29):
repeated `strtok` on `"\n"`, storing tokens while `count < MAX_LINES`;
tokens beyond the cap are dropped. -/
def parse_lines (text : String) : List String :=
  ((splitTokens text.toList []).take MAX_LINES).map String.mk

/-- Splitting a character blob at every line-feed, keeping empty segments
(the plain "split at every delimiter" function; `splitLF [] = [[]]`). -/
def splitLF : List Char → List (List Char)
  | [] => [[]]
  | c :: rest =>
    if c = '\n' then [] :: splitLF rest
    else
      match splitLF rest with
      | [] => [[c]]
      | s :: ss => (c :: s) :: ss

/-- Spec-side reference for the LineSequencer, following the spec's words
(§4.1): split at every line-feed with each line's terminator stripped, so a
trailing line-feed produces no final empty line, consecutive line-feeds
produce an empty line between them, and the empty blob yields the empty
sequence. -/
def linesSpec (text : String) : List String :=
  let parts := splitLF text.toList
  let parts := if parts.getLast? = some [] then parts.dropLast else parts
  parts.map String.mk

/-- `[acc ++ first-part, rest-parts...]`: helper describing how a partial
token combines with the split of the remaining text. -/
def consHead (acc : List Char) : List (List Char) → List (List Char)
  | [] => [acc]
  | s :: ss => (acc ++ s) :: ss

theorem isEmpty_false_iff (l : List Char) : l.isEmpty = false ↔ l ≠ [] := by
  cases l <;> simp [List.isEmpty]

theorem splitLF_ne_nil (cs : List Char) : splitLF cs ≠ [] := by
  induction cs with
  | nil => simp [splitLF]
  | cons c rest ih =>
    simp only [splitLF]
    split
    · simp
    · cases h : splitLF rest with
      | nil => simp
      | cons s ss => simp

theorem splitTokens_eq_filter (cs : List Char) :
    ∀ acc, splitTokens cs acc =
      (consHead acc.reverse (splitLF cs)).filter (fun l => !l.isEmpty) := by
  induction cs with
  | nil =>
    intro acc
    simp only [splitTokens, splitLF, consHead, List.append_nil, List.filter]
    cases h : acc.isEmpty with
    | true =>
      have : acc = [] := by
        cases acc <;> simp_all [List.isEmpty]
      simp [this]
    | false =>
      have hne : acc ≠ [] := (isEmpty_false_iff acc).mp h
      have : acc.reverse.isEmpty = false := by
        rw [isEmpty_false_iff]; simpa using hne
      simp [this]
  | cons c rest ih =>
    intro acc
    simp only [splitTokens, splitLF]
    by_cases hc : c = '\n'
    · simp only [if_pos hc]
      cases h : acc.isEmpty with
      | true =>
        have hacc : acc = [] := by cases acc <;> simp_all [List.isEmpty]
        subst hacc
        rw [ih []]
        cases hs : splitLF rest with
        | nil => exact absurd hs (splitLF_ne_nil rest)
        | cons s ss => simp [consHead, List.filter]
      | false =>
        have hacc : acc ≠ [] := (isEmpty_false_iff acc).mp h
        have hne : acc.reverse.isEmpty = false := by
          rw [isEmpty_false_iff]; simpa using hacc
        rw [ih []]
        cases hs : splitLF rest with
        | nil => exact absurd hs (splitLF_ne_nil rest)
        | cons s ss => simp [consHead, List.filter, hne]
    · simp only [if_neg hc]
      rw [ih (c :: acc)]
      cases hs : splitLF rest with
      | nil => exact absurd hs (splitLF_ne_nil rest)
      | cons s ss =>
        simp [consHead, List.filter]

theorem splitTokens_nil_acc (cs : List Char) :
    splitTokens cs [] = (splitLF cs).filter (fun l => !l.isEmpty) := by
  rw [splitTokens_eq_filter]
  cases hs : splitLF cs with
  | nil => exact absurd hs (splitLF_ne_nil cs)
  | cons s ss => simp [consHead]

/-! ## The diff tool (diff/main.c) -/

/-- The `DiffOp` struct of `print_diff` (diff/main.c:71): `op` is one of
`' '`, `'-'`, `'+'`; `ai`/`bi` are the 0-based indexes into the two line
arrays, with `-1` (here: the missing constructor field) on the side an
operation does not touch. -/
inductive DiffOp where
  | keep (ai bi : Nat)
  | del (ai : Nat)
  | ins (bi : Nat)
deriving DecidableEq

/-- The `op` character stored in a `DiffOp` (diff/main.c:78,84,90). -/
def opChar : DiffOp → Char
  | .keep _ _ => ' '
  | .del _ => '-'
  | .ins _ => '+'

/-- The `ai` field of a `DiffOp` (`none` encodes C's `-1`). -/
def opA : DiffOp → Option Nat
  | .keep ai _ => some ai
  | .del ai => some ai
  | .ins _ => none

/-- The `bi` field of a `DiffOp` (`none` encodes C's `-1`). -/
def opB : DiffOp → Option Nat
  | .keep _ bi => some bi
  | .del _ => none
  | .ins bi => some bi

/-- Fuelled form of the dynamic-programming recurrence filled into `dp` by
`lcs_length` (diff/main.c:41-61).  Every recursive cell has a strictly
smaller index sum, so fuel `i + j` suffices. -/
def lcsTableF (a b : List String) : Nat → Nat → Nat → Nat
  | 0, _, _ => 0
  | _ + 1, 0, _ => 0
  | _ + 1, _ + 1, 0 => 0
  | fuel + 1, i + 1, j + 1 =>
    if a.getD i "" = b.getD j "" then lcsTableF a b fuel i j + 1
    else max (lcsTableF a b fuel i (j + 1)) (lcsTableF a b fuel (i + 1) j)

/-- The dynamic-programming table filled by `lcs_length` (diff/main.c:41-61):
`lcsTable a b i j` is C's `dp[i * (n+1) + j]`, the length of the LCS of the
first `i` lines of `a` and the first `j` lines of `b`. -/
def lcsTable (a b : List String) (i j : Nat) : Nat :=
  lcsTableF a b (i + j) i j

/-- Fuelled form of the backtracking loop of `print_diff`
(diff/main.c:75-96).  The ops are returned in creation order: the first
element is the op produced at cell `(i, j)`, i.e. C's `ops[]` array read
from index `0` upward.  The loop consumes at least one of `i`, `j` per
step, so fuel `i + j` suffices. -/
def backtrackF (a b : List String) : Nat → Nat → Nat → List DiffOp
  | 0, _, _ => []
  | fuel + 1, i, j =>
    if i = 0 ∧ j = 0 then []
    else if i ≠ 0 ∧ j ≠ 0 ∧ a.getD (i - 1) "" = b.getD (j - 1) "" then
      .keep (i - 1) (j - 1) :: backtrackF a b fuel (i - 1) (j - 1)
    else if j ≠ 0 ∧ (i = 0 ∨ lcsTable a b i (j - 1) ≥ lcsTable a b (i - 1) j) then
      .ins (j - 1) :: backtrackF a b fuel i (j - 1)
    else
      .del (i - 1) :: backtrackF a b fuel (i - 1) j

/-- The backtracking loop started at cell `(i, j)`. -/
def backtrackAt (a b : List String) (i j : Nat) : List DiffOp :=
  backtrackF a b (i + j) i j

/-- C's `ops` array after the backtracking loop, read from index `0`:
`ops[k]` is `(backtrack a b).getD k _`. -/
def backtrack (a b : List String) : List DiffOp :=
  backtrackAt a b a.length b.length

/-- `ops[x]` (all accesses in the C code stay in bounds; the default is
irrelevant). -/
def getOp (ops : List DiffOp) (x : Nat) : DiffOp :=
  ops.getD x (.del 0)

/-- A hunk as printed by `print_diff`: the four header integers and the
body lines, each with its leading character. -/
structure Hunk where
  a_start : Nat
  a_count : Nat
  b_start : Nat
  b_count : Nat
  body : List (Char × String)
deriving DecidableEq

/-- The descending index range `hi, hi-1, ..., lo` of C's
`for (x = hi; x >= lo; x--)` loops (empty when `hi < lo`). -/
def idxRangeDown (hi lo : Nat) : List Nat :=
  (List.range (hi + 1 - lo)).map (fun t => hi - t)

/-- The line printed for `ops[x]` (diff/main.c:140-148): `a`'s line for a
keep or delete, `b`'s line for an insert, behind the op character. -/
def entryFor (a b : List String) (op : DiffOp) : Char × String :=
  match op with
  | .keep ai _ => (' ', a.getD ai "")
  | .del ai => ('-', a.getD ai "")
  | .ins bi => ('+', b.getD bi "")

/-- The `a_count` accumulation of diff/main.c:133/161:
`if (ops[x].op == ' ' || ops[x].op == '-') a_count++` over the hunk's
index range. -/
def countA (ops : List DiffOp) (idxs : List Nat) : Nat :=
  idxs.foldl
    (fun acc x =>
      if opChar (getOp ops x) = ' ' ∨ opChar (getOp ops x) = '-' then acc + 1 else acc)
    0

/-- The `b_count` accumulation of diff/main.c:134/162. -/
def countB (ops : List DiffOp) (idxs : List Nat) : Nat :=
  idxs.foldl
    (fun acc x =>
      if opChar (getOp ops x) = ' ' ∨ opChar (getOp ops x) = '+' then acc + 1 else acc)
    0

/-- The hunk printed for the op range `start_idx` down to `end_idx`:
starts from `ops[start_idx]` (`(ops[x].ai >= 0) ? ops[x].ai + 1 : 1`,
diff/main.c:129-130/166-167), counts and body over the same range
(diff/main.c:132-135 and 140-148, resp. 160-163 and 172-180). -/
def hunkAt (a b : List String) (ops : List DiffOp) (start_idx end_idx : Nat) : Hunk :=
  let idxs := idxRangeDown start_idx end_idx
  { a_start := match opA (getOp ops start_idx) with | some ai => ai + 1 | none => 1
    b_start := match opB (getOp ops start_idx) with | some bi => bi + 1 | none => 1
    a_count := countA ops idxs
    b_count := countB ops idxs
    body := idxs.map (fun x => entryFor a b (getOp ops x)) }

/-- The hunk flushed mid-scan when a keep op is met while a change-run is
open (diff/main.c:113-138): context window arithmetic on `hunk_start` /
`hunk_end`, then `hunkAt` over the clamped range.  (Natural subtraction
models C's `if (end_idx < 0) end_idx = 0` clamp.) -/
def mkMidHunk (a b : List String) (ops : List DiffOp) (hs he : Nat) : Hunk :=
  let n := ops.length
  let context_before := if hs < n - 1 then 3 else 0
  let context_after := if he > 0 then 3 else 0
  let start_idx := if hs + context_before ≥ n then n - 1 else hs + context_before
  let end_idx := he - context_after
  hunkAt a b ops start_idx end_idx

/-- The hunk-finding scan of `print_diff` (diff/main.c:108-153): `k`
counts down over op indexes (`k+1` means index `k` is next); the state is
`some (hunk_start, hunk_end)` when a change-run is open (`hunk_start ≥ 0`
in C) and `none` otherwise.  Returns the hunks flushed during the scan and
the final state. -/
def diffLoop (a b : List String) (ops : List DiffOp) :
    Nat → Option (Nat × Nat) → List Hunk × Option (Nat × Nat)
  | 0, st => ([], st)
  | k + 1, st =>
    if opChar (getOp ops k) ≠ ' ' then
      diffLoop a b ops k (some (match st with
        | none => (k, k)
        | some (hs, _) => (hs, k)))
    else
      match st with
      | some (hs, he) =>
        (mkMidHunk a b ops hs he :: (diffLoop a b ops k none).1,
         (diffLoop a b ops k none).2)
      | none => diffLoop a b ops k none

/-- The sequence of hunks printed by `print_diff` (diff/main.c:104-183):
the hunks flushed during the scan, then — when a change-run is still open
at the end of the scan (diff/main.c:156-181) — a final hunk spanning the
whole op array. -/
def print_diff (a b : List String) : List Hunk :=
  let ops := backtrack a b
  match (diffLoop a b ops ops.length none).2 with
  | some _ => (diffLoop a b ops ops.length none).1 ++ [hunkAt a b ops (ops.length - 1) 0]
  | none => (diffLoop a b ops ops.length none).1

/-- Rendering of one hunk: the `@@ -a,b +c,d @@` header line then the
prefixed body lines (diff/main.c:138-148). -/
def renderHunk (h : Hunk) : String :=
  "@@ -" ++ toString h.a_start ++ "," ++ toString h.a_count ++
    " +" ++ toString h.b_start ++ "," ++ toString h.b_count ++ " @@\n" ++
    String.join (h.body.map (fun e => String.mk [e.1] ++ e.2 ++ "\n"))

/-- The complete output of the diff tool on two argument texts
(diff/main.c:186-202): the two header lines then the hunks. -/
def diffTool (A B : String) : String :=
  "--- a\n+++ b\n" ++
    String.join ((print_diff (parse_lines A) (parse_lines B)).map renderHunk)

/-! ## The patch tool (patch/main.c) -/

/-- `strncmp(s, pre, pre.length) == 0`: the first `pre.length` characters
of `s` are exactly `pre` (false when `s` is shorter, as the C comparison
then hits the terminating NUL). -/
def hasPrefixN (s : String) (pre : List Char) : Bool :=
  decide (s.toList.take pre.length = pre)

/-- C's `isspace` characters, skipped by a space directive and by `%d` in
`sscanf`. -/
def isWsC (c : Char) : Bool :=
  c = ' ' || c = '\t' || c = '\n' || c = '\x0b' || c = '\x0c' || c = '\r'

/-- Value of a digit run. -/
def digitsVal (ds : List Char) : Nat :=
  ds.foldl (fun n c => n * 10 + (c.toNat - '0'.toNat)) 0

/-- One `%d` conversion of `sscanf`: skip whitespace, an optional single
sign, then at least one digit; fails when no digit follows. -/
def scanInt (cs : List Char) : Option (Int × List Char) :=
  let cs := cs.dropWhile isWsC
  match cs with
  | '-' :: rest =>
    let ds := rest.takeWhile Char.isDigit
    if ds.isEmpty then none else some (-(digitsVal ds : Int), rest.dropWhile Char.isDigit)
  | '+' :: rest =>
    let ds := rest.takeWhile Char.isDigit
    if ds.isEmpty then none else some ((digitsVal ds : Int), rest.dropWhile Char.isDigit)
  | _ =>
    let ds := cs.takeWhile Char.isDigit
    if ds.isEmpty then none else some ((digitsVal ds : Int), cs.dropWhile Char.isDigit)

/-- One literal-character directive of `sscanf`. -/
def expectChar (c : Char) : List Char → Option (List Char)
  | x :: rest => if x = c then some rest else none
  | [] => none

/-- `parse_hunk_header` (patch/main.c:38-41): models
`sscanf(line, "@@ -%d,%d +%d,%d @@", ...) >= 2`.  The call succeeds as
soon as the first two conversions (`old_start`, `old_count`) complete —
the later directives are never needed for success — and `apply_patch`
reads only `old_start` of the four output variables, so the model returns
`old_start` on success. -/
def parse_hunk_header (line : String) : Option Int := do
  let cs := line.toList
  let cs ← expectChar '@' cs
  let cs ← expectChar '@' cs
  let cs := cs.dropWhile isWsC
  let cs ← expectChar '-' cs
  let (old_start, cs) ← scanInt cs
  let cs ← expectChar ',' cs
  let (_old_count, _cs) ← scanInt cs
  pure old_start

/-- `result.lines[result.count++] = ...` guarded by
`result.count < MAX_LINES` (patch/main.c:70-71, 82-83, 100-101, 113-114):
a line is appended only below the cap, silently dropped otherwise. -/
def push (res : List String) (l : String) : List String :=
  if res.length < MAX_LINES then res ++ [l] else res

/-- Fuelled form of the copy loop before a hunk (patch/main.c:69-74):
`while (orig_idx < old_start - 1 && orig_idx < original->count)` copy a
line and advance.  Each iteration requires `oi < orig.length` and
increments `oi`, so fuel `orig.length - oi` is exact: at fuel `0` the
loop guard is false anyway. -/
def copyUpToF (orig : List String) : Nat → List String → Nat → Int → List String × Nat
  | 0, res, oi, _ => (res, oi)
  | fuel + 1, res, oi, target =>
    if oi < orig.length ∧ (oi : Int) < target then
      copyUpToF orig fuel (push res (orig.getD oi "")) (oi + 1) target
    else
      (res, oi)

/-- The copy loop before a hunk (patch/main.c:69-74).  Returns the
extended result and the new `orig_idx`. -/
def copyUpTo (orig : List String) (res : List String) (oi : Nat) (target : Int) :
    List String × Nat :=
  copyUpToF orig (orig.length - oi) res oi target

/-- The header-skipping loop of `apply_patch` (patch/main.c:52-59): skip
leading lines beginning with `---` or `+++`. -/
def skipHeaders : List String → List String
  | [] => []
  | l :: rest =>
    if hasPrefixN l ['-', '-', '-'] || hasPrefixN l ['+', '+', '+'] then skipHeaders rest
    else l :: rest

/-- The main loop of `apply_patch` (patch/main.c:61-117), one case per
leading-character test, plus the final copy of the remaining original
lines (patch/main.c:112-117). -/
def applyLoop (orig : List String) : List String → Nat → List String → List String
  | [], oi, res => (orig.drop oi).foldl push res
  | pline :: rest, oi, res =>
    if hasPrefixN pline ['@', '@'] then
      match parse_hunk_header pline with
      | some old_start =>
        applyLoop orig rest (copyUpTo orig res oi (old_start - 1)).2
          (copyUpTo orig res oi (old_start - 1)).1
      | none => applyLoop orig rest oi res
    else if hasPrefixN pline [' '] then
      applyLoop orig rest (oi + 1) (push res (pline.drop 1))
    else if hasPrefixN pline ['-'] then
      applyLoop orig rest (oi + 1) res
    else if hasPrefixN pline ['+'] then
      applyLoop orig rest oi (push res (pline.drop 1))
    else
      applyLoop orig rest oi res

/-- `apply_patch` (patch/main.c:44-125) as the result line sequence it
prints. -/
def apply_patch (orig patch : List String) : List String :=
  applyLoop orig (skipHeaders patch) 0 []

/-- Lines joined with a line-feed after each, as both tools print them. -/
def joinNL (ls : List String) : String :=
  String.join (ls.map (· ++ "\n"))

/-- The complete output of the patch tool on its two argument texts
(patch/main.c:127-144). -/
def patchTool (origText patchText : String) : String :=
  joinNL (apply_patch (parse_lines origText) (parse_lines patchText))

/-! ## Line sequencer facts (claims C3 and C9) -/

/-- What `parse_lines` actually computes: the line-feed split with all
empty segments discarded, truncated to the first `MAX_LINES` tokens. -/
theorem parse_lines_eq_filter_splitLF (text : String) :
    parse_lines text =
      (((splitLF text.toList).filter (fun l => !l.isEmpty)).take MAX_LINES).map String.mk := by
  unfold parse_lines
  rw [splitTokens_nil_acc]

/-- A blob of `n` lines, each the single character `a` followed by a
line-feed. -/
def blobOf : Nat → List Char
  | 0 => []
  | n + 1 => 'a' :: '\n' :: blobOf n

theorem splitLF_blobOf (n : Nat) :
    splitLF (blobOf n) = List.replicate n ['a'] ++ [[]] := by
  induction n with
  | zero => rfl
  | succ n ih =>
    show splitLF ('a' :: '\n' :: blobOf n) = _
    have h1 : splitLF ('\n' :: blobOf n) = [] :: splitLF (blobOf n) := by
      simp [splitLF]
    have h2 : ('a' : Char) ≠ '\n' := by decide
    simp only [splitLF, if_neg h2, h1, ih]
    rfl

theorem tokens_blobOf (n : Nat) :
    (splitLF (blobOf n)).filter (fun l => !l.isEmpty) = List.replicate n ['a'] := by
  rw [splitLF_blobOf, List.filter_append]
  have h1 : (List.replicate n ['a']).filter (fun l => !l.isEmpty) = List.replicate n ['a'] := by
    apply List.filter_eq_self.mpr
    intro l hl
    rw [List.eq_of_mem_replicate hl]
    decide
  have h2 : ([([] : List Char)]).filter (fun l => !l.isEmpty) = [] := by decide
  rw [h1, h2, List.append_nil]

/-- C3 counterexample: on the blob `"a\n\nb"` (consecutive line-feeds) the
code's line sequencer drops the empty line that the claim's split-at-every-
line-feed description produces, so the two disagree. -/
theorem claim3_counterexample :
    parse_lines "a\n\nb" = ["a", "b"] ∧ linesSpec "a\n\nb" = ["a", "", "b"] ∧
      (["a", "b"] : List String) ≠ ["a", "", "b"] := by
  refine ⟨by decide, by decide, by decide⟩

/-- C3 (amended): for every text blob the line sequencer returns the
sequence obtained by splitting the blob at every line-feed character with
each line's terminator stripped and every empty segment discarded (so
consecutive line-feeds yield no empty line between them), truncated to the
first `MAX_LINES` lines; the empty blob yields the empty sequence. -/
theorem claim3_parse_lines_drops_empties (text : String) :
    parse_lines text =
      (((splitLF text.toList).filter (fun l => !l.isEmpty)).take MAX_LINES).map String.mk ∧
    parse_lines "" = [] :=
  ⟨parse_lines_eq_filter_splitLF text, rfl⟩

/-- C3 witness: the amended statement at the blob `"a\n\nb"`. -/
theorem claim3_witness :
    parse_lines "a\n\nb" =
      (((splitLF ("a\n\nb" : String).toList).filter (fun l => !l.isEmpty)).take MAX_LINES).map
        String.mk :=
  (claim3_parse_lines_drops_empties "a\n\nb").1

/-- C9 counterexample: a blob of `10001` lines is parsed to exactly the
first `10000` lines — truncation happens and no failure of any kind is
signalled (the code's line sequencer is a total function into line
sequences; it has no error outcome at all). -/
theorem claim9_counterexample :
    parse_lines (String.mk (blobOf 10001)) = List.replicate MAX_LINES "a" ∧
      (List.replicate MAX_LINES "a").length ≠ 10001 := by
  constructor
  · rw [parse_lines_eq_filter_splitLF]
    show ((((splitLF (blobOf 10001)).filter (fun l => !l.isEmpty)).take MAX_LINES).map
        String.mk) = _
    rw [tokens_blobOf, List.take_replicate, List.map_replicate]
    have : min MAX_LINES 10001 = MAX_LINES := by decide
    rw [this]
  · rw [List.length_replicate]
    decide

/-- C9 (amended): when a blob splits into more than `MAX_LINES = 10000`
lines, the line sequencer silently truncates to the first `MAX_LINES`
lines; no `CapacityExceeded` (or any other) error is raised — the
function totally returns the truncated sequence. -/
theorem claim9_capacity_silently_truncates (text : String)
    (h : MAX_LINES < ((splitLF text.toList).filter (fun l => !l.isEmpty)).length) :
    (parse_lines text).length = MAX_LINES ∧
      parse_lines text =
        (((splitLF text.toList).filter (fun l => !l.isEmpty)).take MAX_LINES).map String.mk := by
  refine ⟨?_, parse_lines_eq_filter_splitLF text⟩
  rw [parse_lines_eq_filter_splitLF, List.length_map, List.length_take]
  omega

/-- C9 witness: the 10001-line blob exceeds the cap and is truncated to
length `MAX_LINES`. -/
theorem claim9_witness :
    MAX_LINES <
        ((splitLF (String.mk (blobOf 10001)).toList).filter (fun l => !l.isEmpty)).length ∧
      (parse_lines (String.mk (blobOf 10001))).length = MAX_LINES := by
  have hh : MAX_LINES <
      ((splitLF (String.mk (blobOf 10001)).toList).filter (fun l => !l.isEmpty)).length := by
    show MAX_LINES < ((splitLF (blobOf 10001)).filter (fun l => !l.isEmpty)).length
    rw [tokens_blobOf, List.length_replicate]
    decide
  exact ⟨hh, (claim9_capacity_silently_truncates _ hh).1⟩

/-! ## Backtracking tie-break (claim C2) -/

theorem lcsTableF_fuel (a b : List String) :
    ∀ f1 f2 i j, i + j ≤ f1 → i + j ≤ f2 →
      lcsTableF a b f1 i j = lcsTableF a b f2 i j := by
  intro f1
  induction f1 with
  | zero =>
    intro f2 i j h1 h2
    have hi : i = 0 := by omega
    have hj : j = 0 := by omega
    subst hi; subst hj
    cases f2 with
    | zero => rfl
    | succ f2 => rfl
  | succ f1 ih =>
    intro f2 i j h1 h2
    cases f2 with
    | zero =>
      have hi : i = 0 := by omega
      have hj : j = 0 := by omega
      subst hi; subst hj
      rfl
    | succ f2 =>
      match i, j with
      | 0, _ => rfl
      | _ + 1, 0 => rfl
      | i + 1, j + 1 =>
        simp only [lcsTableF]
        rw [ih f2 i j (by omega) (by omega), ih f2 i (j + 1) (by omega) (by omega),
          ih f2 (i + 1) j (by omega) (by omega)]

/-- The embedded table satisfies exactly the recurrence `lcs_length` fills
into `dp` (diff/main.c:48-58). -/
theorem lcsTable_rec (a b : List String) (i j : Nat) :
    lcsTable a b (i + 1) (j + 1) =
      if a.getD i "" = b.getD j "" then lcsTable a b i j + 1
      else max (lcsTable a b i (j + 1)) (lcsTable a b (i + 1) j) := by
  show lcsTableF a b (i + 1 + (j + 1)) (i + 1) (j + 1) = _
  have hstep : i + 1 + (j + 1) = (i + j + 1) + 1 := by omega
  rw [hstep]
  simp only [lcsTableF]
  rw [lcsTableF_fuel a b (i + j + 1) (i + j) i j (by omega) (by omega),
    lcsTableF_fuel a b (i + j + 1) (i + (j + 1)) i (j + 1) (by omega) (by omega),
    lcsTableF_fuel a b (i + j + 1) ((i + 1) + j) (i + 1) j (by omega) (by omega)]
  rfl

theorem backtrackF_fuel (a b : List String) :
    ∀ f1 f2 i j, i + j ≤ f1 → i + j ≤ f2 →
      backtrackF a b f1 i j = backtrackF a b f2 i j := by
  intro f1
  induction f1 with
  | zero =>
    intro f2 i j h1 h2
    have hi : i = 0 := by omega
    have hj : j = 0 := by omega
    subst hi; subst hj
    cases f2 with
    | zero => rfl
    | succ f2 => simp [backtrackF]
  | succ f1 ih =>
    intro f2 i j h1 h2
    cases f2 with
    | zero =>
      have hi : i = 0 := by omega
      have hj : j = 0 := by omega
      subst hi; subst hj
      simp [backtrackF]
    | succ f2 =>
      simp only [backtrackF]
      split_ifs with hz hk hins
      · rfl
      · have hi : i ≠ 0 := hk.1
        have hj : j ≠ 0 := hk.2.1
        rw [ih f2 (i - 1) (j - 1) (by omega) (by omega)]
      · have hj : j ≠ 0 := hins.1
        rw [ih f2 i (j - 1) (by omega) (by omega)]
      · have hi : i ≠ 0 := by
          intro hi0
          subst hi0
          have hj : j ≠ 0 := by
            intro hj0; exact hz ⟨rfl, hj0⟩
          exact hins ⟨hj, Or.inl rfl⟩
        rw [ih f2 (i - 1) j (by omega) (by omega)]

/-- C2: the backtracking step of the diff is pinned by the deterministic
tie-break rule.  At any cell `(i, j)` with `i, j > 0`: when
`A[i-1] == B[j-1]` the step emits a `Keep`, and when there is no match but
the two lateral dynamic-programming cells `cell[i][j-1]` and
`cell[i-1][j]` are equal, the step consumes from `B` first, emitting an
`Insert` (scanning from the end) rather than a `Delete`. -/
theorem claim2_backtrack_tiebreak (a b : List String) (i j : Nat)
    (hi : 0 < i) (hj : 0 < j)
    (hcase : a.getD (i - 1) "" = b.getD (j - 1) "" ∨
      lcsTable a b i (j - 1) = lcsTable a b (i - 1) j) :
    backtrackAt a b i j =
      if a.getD (i - 1) "" = b.getD (j - 1) "" then
        DiffOp.keep (i - 1) (j - 1) :: backtrackAt a b (i - 1) (j - 1)
      else
        DiffOp.ins (j - 1) :: backtrackAt a b i (j - 1) := by
  have hij : i + j = (i + j - 1) + 1 := by omega
  unfold backtrackAt
  rw [hij]
  simp only [backtrackF]
  have hz : ¬(i = 0 ∧ j = 0) := by omega
  rw [if_neg hz]
  by_cases heq : a.getD (i - 1) "" = b.getD (j - 1) ""
  · rw [if_pos ⟨by omega, by omega, heq⟩, if_pos heq]
    rw [backtrackF_fuel a b (i + j - 1) ((i - 1) + (j - 1)) (i - 1) (j - 1)
      (by omega) (by omega)]
  · have htie : lcsTable a b i (j - 1) = lcsTable a b (i - 1) j := by
      rcases hcase with h | h
      · exact absurd h heq
      · exact h
    rw [if_neg (by
      intro hk
      exact heq hk.2.2)]
    rw [if_pos ⟨by omega, Or.inr (le_of_eq htie.symm)⟩, if_neg heq]
    rw [backtrackF_fuel a b (i + j - 1) (i + (j - 1)) i (j - 1) (by omega) (by omega)]

/-- C2 witness: at `A = ["a"]`, `B = ["b"]`, cell `(1, 1)`: no match and
the lateral cells are both `0`, so the step emits the `Insert`. -/
theorem claim2_witness :
    backtrackAt ["a"] ["b"] 1 1 = DiffOp.ins 0 :: backtrackAt ["a"] ["b"] 1 0 := by
  have h := claim2_backtrack_tiebreak ["a"] ["b"] 1 1 (by decide) (by decide)
    (Or.inr (by decide))
  rw [h, if_neg (by decide)]

/-! ## Hunk count-consistency (claim C5) -/

theorem foldl_if_count {α : Type} (p : α → Prop) [DecidablePred p] (l : List α) (n : Nat) :
    l.foldl (fun acc x => if p x then acc + 1 else acc) n
      = n + l.countP (fun x => decide (p x)) := by
  induction l generalizing n with
  | nil => simp
  | cons x t ih =>
    simp only [List.foldl, List.countP_cons, ih]
    by_cases hx : p x
    · simp [hx]
      omega
    · simp [hx]

theorem entryFor_fst (a b : List String) (op : DiffOp) :
    (entryFor a b op).1 = opChar op := by
  cases op <;> rfl

theorem hunkAt_count_consistent (a b : List String) (ops : List DiffOp) (s e : Nat) :
    (hunkAt a b ops s e).a_count
        = (hunkAt a b ops s e).body.countP (fun x => decide (x.1 = ' ' ∨ x.1 = '-')) ∧
      (hunkAt a b ops s e).b_count
        = (hunkAt a b ops s e).body.countP (fun x => decide (x.1 = ' ' ∨ x.1 = '+')) := by
  simp only [hunkAt, countA, countB]
  constructor
  · rw [foldl_if_count (fun x => opChar (getOp ops x) = ' ' ∨ opChar (getOp ops x) = '-')]
    rw [List.countP_map]
    have hfun : ((fun x : Char × String => decide (x.1 = ' ' ∨ x.1 = '-')) ∘
          fun x => entryFor a b (getOp ops x))
        = fun x => decide (opChar (getOp ops x) = ' ' ∨ opChar (getOp ops x) = '-') := by
      funext x
      simp [Function.comp, entryFor_fst]
    rw [hfun]
    omega
  · rw [foldl_if_count (fun x => opChar (getOp ops x) = ' ' ∨ opChar (getOp ops x) = '+')]
    rw [List.countP_map]
    have hfun : ((fun x : Char × String => decide (x.1 = ' ' ∨ x.1 = '+')) ∘
          fun x => entryFor a b (getOp ops x))
        = fun x => decide (opChar (getOp ops x) = ' ' ∨ opChar (getOp ops x) = '+') := by
      funext x
      simp [Function.comp, entryFor_fst]
    rw [hfun]
    omega

theorem diffLoop_mem (a b : List String) (ops : List DiffOp) :
    ∀ k st h, h ∈ (diffLoop a b ops k st).1 → ∃ s e, h = mkMidHunk a b ops s e := by
  intro k
  induction k with
  | zero =>
    intro st h hmem
    simp [diffLoop] at hmem
  | succ k ih =>
    intro st h hmem
    simp only [diffLoop] at hmem
    split at hmem
    · exact ih _ h hmem
    · split at hmem
      · next hs he =>
        rcases List.mem_cons.mp hmem with heq | hmem'
        · exact ⟨_, _, heq⟩
        · exact ih _ h hmem'
      · exact ih _ h hmem

/-- C5: for every pair of input texts and every hunk in the diff output,
the `old_count` header field equals the number of context plus delete
lines in the hunk's body, and `new_count` equals the number of context
plus insert lines. -/
theorem claim5_hunk_count_consistency (A B : String) (h : Hunk)
    (hmem : h ∈ print_diff (parse_lines A) (parse_lines B)) :
    h.a_count = h.body.countP (fun x => decide (x.1 = ' ' ∨ x.1 = '-')) ∧
      h.b_count = h.body.countP (fun x => decide (x.1 = ' ' ∨ x.1 = '+')) := by
  have key : ∀ (a b : List String), h ∈ print_diff a b →
      h.a_count = h.body.countP (fun x => decide (x.1 = ' ' ∨ x.1 = '-')) ∧
        h.b_count = h.body.countP (fun x => decide (x.1 = ' ' ∨ x.1 = '+')) := by
    intro a b hm
    simp only [print_diff] at hm
    split at hm
    · rcases List.mem_append.mp hm with hmid | hfin
      · obtain ⟨s, e, rfl⟩ := diffLoop_mem a b _ _ _ _ hmid
        exact hunkAt_count_consistent a b _ _ _
      · rcases List.mem_singleton.mp hfin with rfl
        exact hunkAt_count_consistent a b _ _ _
    · obtain ⟨s, e, rfl⟩ := diffLoop_mem a b _ _ _ _ hm
      exact hunkAt_count_consistent a b _ _ _
  exact key _ _ hmem

/-- C5 witness: the single hunk diffing `a b c` against `a x c` is in the
output and its header counts match its body. -/
theorem claim5_witness :
    (⟨1, 3, 1, 3, [(' ', "a"), ('-', "b"), ('+', "x"), (' ', "c")]⟩ : Hunk) ∈
        print_diff (parse_lines "a\nb\nc") (parse_lines "a\nx\nc") ∧
      ((⟨1, 3, 1, 3, [(' ', "a"), ('-', "b"), ('+', "x"), (' ', "c")]⟩ : Hunk).a_count =
          (⟨1, 3, 1, 3, [(' ', "a"), ('-', "b"), ('+', "x"), (' ', "c")]⟩ : Hunk).body.countP
            (fun x => decide (x.1 = ' ' ∨ x.1 = '-')) ∧
        (⟨1, 3, 1, 3, [(' ', "a"), ('-', "b"), ('+', "x"), (' ', "c")]⟩ : Hunk).b_count =
          (⟨1, 3, 1, 3, [(' ', "a"), ('-', "b"), ('+', "x"), (' ', "c")]⟩ : Hunk).body.countP
            (fun x => decide (x.1 = ' ' ∨ x.1 = '+')) ) :=
  ⟨by decide, claim5_hunk_count_consistency "a\nb\nc" "a\nx\nc" _ (by decide)⟩

/-! ## Round trip, hunk grouping and hunk ordering (claims C1, C4, C6)

Two change-runs separated by a single kept line expose the hunk-emission
slip of `print_diff`: the scan flushes a hunk at the first keep op after a
change-run, its context window re-covers the ops of the following run, and
the final-hunk branch then re-emits the whole edit script as a second,
fully overlapping hunk. -/

/-- C1: the round-trip law fails.  Diffing `1 2 3` against `x 2 y` emits
two identical overlapping hunks, so applying the diff to the first text
yields the second text twice over instead of once. -/
theorem claim1_roundtrip_fails :
    patchTool "1\n2\n3\n" (diffTool "1\n2\n3\n" "x\n2\ny\n") = "x\n2\ny\nx\n2\ny\n" ∧
      ("x\n2\ny\nx\n2\ny\n" : String) ≠ "x\n2\ny\n" :=
  ⟨by decide, by decide⟩

/-- C4: two change-runs separated by one `Keep` line are not merged into a
single hunk; `print_diff` emits two hunks, each (through the context
windows and the final-hunk branch) covering all five ops. -/
theorem claim4_runs_not_merged :
    print_diff ["1", "2", "3"] ["x", "2", "y"] =
      [⟨1, 3, 1, 3, [('-', "1"), ('+', "x"), (' ', "2"), ('-', "3"), ('+', "y")]⟩,
        ⟨1, 3, 1, 3, [('-', "1"), ('+', "x"), (' ', "2"), ('-', "3"), ('+', "y")]⟩] := by
  decide

/-- C6: the two hunks of the same diff carry equal `old_start` values and
fully overlapping old-side ranges, so hunks are not in strictly increasing
`old_start` order. -/
theorem claim6_hunks_not_monotone :
    ((print_diff ["1", "2", "3"] ["x", "2", "y"]).map Hunk.a_start = [1, 1]) ∧
      ¬ (1 : Nat) < 1 :=
  ⟨by decide, by decide⟩

/-! ## Patch-side error handling (claims C7, C8) -/

/-- C8: a hunk addressing lines 5ff of a one-line original is applied
without any bounds or content check: the lone original line is copied, the
mismatching context line's own text is emitted, and the tool prints
`a\nx\n` — no `PatchDoesNotApply` failure exists anywhere in the code. -/
theorem claim8_out_of_range_applies :
    patchTool "a" "@@ -5,1 +5,1 @@\n x" = "a\nx\n" := by
  decide

/-- C7 counterexample: applying a patch whose header reads `@@ bogus @@`
(followed by a body line) against the original `a` produces the non-empty
output `x\na\n` — the malformed header is silently skipped, the body line
is still applied, and no failure occurs. -/
theorem claim7_counterexample :
    patchTool "a" "@@ bogus @@\n+x" = "x\na\n" ∧ ("x\na\n" : String) ≠ "" :=
  ⟨by decide, by decide⟩

theorem parse_lines_length_le (t : String) : (parse_lines t).length ≤ MAX_LINES := by
  rw [parse_lines, List.length_map]
  exact List.length_take_le _ _

theorem foldl_push_all (l : List String) :
    ∀ res : List String, res.length + l.length ≤ MAX_LINES → l.foldl push res = res ++ l := by
  induction l with
  | nil => intro res _; simp
  | cons x t ih =>
    intro res h
    simp only [List.foldl]
    have hlt : res.length < MAX_LINES := by
      simp only [List.length_cons] at h
      omega
    have hpush : push res x = res ++ [x] := if_pos hlt
    have hlen : (res ++ [x]).length + t.length ≤ MAX_LINES := by
      simp only [List.length_append, List.length_singleton, List.length_cons,
        List.length_nil] at h ⊢
      omega
    rw [hpush, ih (res ++ [x]) hlen, List.append_assoc]
    rfl

/-- C7 (amended): applying a patch text whose hunk header line reads
`@@ bogus @@` does not fail: the unparseable header is skipped without
copying any lines, application continues, and output is produced — for a
patch consisting of just that header, the output is the original's parsed
lines unchanged. -/
theorem claim7_bogus_header_ignored (origText : String) :
    patchTool origText "@@ bogus @@" = joinNL (parse_lines origText) := by
  unfold patchTool
  congr 1
  have h1 : apply_patch (parse_lines origText) (parse_lines "@@ bogus @@")
      = applyLoop (parse_lines origText) [] 0 [] := rfl
  rw [h1]
  show ((parse_lines origText).drop 0).foldl push [] = parse_lines origText
  rw [List.drop_zero]
  have h2 := foldl_push_all (parse_lines origText) []
    (by simpa using parse_lines_length_le origText)
  simpa using h2

/-! ## Header integers other than old_start are ignored (claim C10) -/

/-- Two patch lines are similar when they are identical, or both are hunk
header lines (`@@` prefix) whose `parse_hunk_header` results agree — in
particular two parseable headers that differ only in the `old_count`,
`new_start` or `new_count` integer fields, since the parse result is
`old_start` alone. -/
def lineSim (l1 l2 : String) : Prop :=
  l1 = l2 ∨
    (hasPrefixN l1 ['@', '@'] = true ∧ hasPrefixN l2 ['@', '@'] = true ∧
      parse_hunk_header l1 = parse_hunk_header l2)

/-- Linewise similarity of two patch line sequences. -/
def PatchSimilar (p1 p2 : List String) : Prop :=
  List.Forall₂ lineSim p1 p2

theorem hdr_shape {l : String} (h : hasPrefixN l ['@', '@'] = true) :
    ∃ t, l.toList = '@' :: '@' :: t := by
  unfold hasPrefixN at h
  rw [decide_eq_true_iff] at h
  cases hl : l.toList with
  | nil =>
    rw [hl] at h
    simp at h
  | cons c1 rest =>
    cases rest with
    | nil =>
      rw [hl] at h
      simp at h
    | cons c2 t =>
      rw [hl] at h
      simp only [List.take, List.cons.injEq] at h
      obtain ⟨hc1, hc2, -⟩ := h
      subst hc1
      subst hc2
      exact ⟨t, rfl⟩

theorem hdr_not_skippable {l : String} (h : hasPrefixN l ['@', '@'] = true) :
    hasPrefixN l ['-', '-', '-'] = false ∧ hasPrefixN l ['+', '+', '+'] = false := by
  obtain ⟨t, ht⟩ := hdr_shape h
  unfold hasPrefixN
  rw [ht]
  constructor <;>
  · rw [decide_eq_false_iff_not]
    intro hc
    simp only [List.take, List.cons.injEq] at hc
    exact absurd hc.1 (by decide)

theorem skipHeaders_sim : ∀ {p1 p2 : List String}, PatchSimilar p1 p2 →
    PatchSimilar (skipHeaders p1) (skipHeaders p2) := by
  intro p1 p2 hsim
  induction hsim with
  | nil => exact .nil
  | @cons a₁ a₂ t1 t2 hl ht ih =>
    rcases hl with heq | ⟨h1, h2, hp⟩
    · subst heq
      simp only [skipHeaders]
      split
      · exact ih
      · exact .cons (Or.inl rfl) ht
    · have n1 := hdr_not_skippable h1
      have n2 := hdr_not_skippable h2
      simp only [skipHeaders, n1.1, n1.2, n2.1, n2.2, Bool.or_self, Bool.false_eq_true,
        if_false]
      exact .cons (Or.inr ⟨h1, h2, hp⟩) ht

theorem applyLoop_sim (orig : List String) :
    ∀ {p1 p2 : List String}, PatchSimilar p1 p2 →
      ∀ oi res, applyLoop orig p1 oi res = applyLoop orig p2 oi res := by
  intro p1 p2 hsim
  induction hsim with
  | nil => intro oi res; rfl
  | @cons a₁ a₂ t1 t2 hl ht ih =>
    intro oi res
    rcases hl with heq | ⟨h1, h2, hp⟩
    · subst heq
      simp only [applyLoop]
      split
      · split
        · exact ih _ _
        · exact ih _ _
      · split
        · exact ih _ _
        · split
          · exact ih _ _
          · split
            · exact ih _ _
            · exact ih _ _
    · simp only [applyLoop, h1, h2, if_true]
      rw [hp]
      split
      · exact ih _ _
      · exact ih _ _

/-- C10: the patch applier's output depends, among the four hunk-header
integers, only on `old_start`.  For any original and any two patch line
sequences that are identical except that corresponding header lines (both
parseable, or both unparseable) yield the same `parse_hunk_header` result
— e.g. differ only in the `old_count`, `new_start` or `new_count` fields —
the applied results are identical. -/
theorem claim10_only_old_start_matters (orig p1 p2 : List String)
    (hsim : PatchSimilar p1 p2) :
    apply_patch orig p1 = apply_patch orig p2 := by
  unfold apply_patch
  exact applyLoop_sim orig (skipHeaders_sim hsim) 0 []

/-- C10 witness: two patches differing in `old_count`, `new_start` and
`new_count` (but not `old_start`) applied to the same original give the
same output. -/
theorem claim10_witness :
    PatchSimilar ["@@ -2,1 +9,1 @@", "+x"] ["@@ -2,5 +1,7 @@", "+x"] ∧
      apply_patch ["a", "b"] ["@@ -2,1 +9,1 @@", "+x"]
        = apply_patch ["a", "b"] ["@@ -2,5 +1,7 @@", "+x"] :=
  have hsim : PatchSimilar ["@@ -2,1 +9,1 @@", "+x"] ["@@ -2,5 +1,7 @@", "+x"] :=
    .cons (Or.inr ⟨by decide, by decide, by decide⟩) (.cons (Or.inl rfl) .nil)
  ⟨hsim, claim10_only_old_start_matters ["a", "b"] _ _ hsim⟩

end DiffPatch
